import Mathlib

/-!
Verification of the Mandelbrot viewer (src/main.cpp) against its
natural-language specification.

The C++ source is shallowly embedded below.  `double` arithmetic is
idealised as exact arithmetic in a linear ordered field (instantiated at
`ℚ` for executable witnesses and at `ℝ` where logarithms are involved);
the spec's claims are themselves stated "within floating-point
tolerance".  `int` counters are embedded as `ℕ`/`ℤ`.
-/

namespace Mandelbrot

/-- Display colors.  `black` embeds raylib's `BLACK`; `fromHSV` embeds a
call to the external raylib `ColorFromHSV(hue, saturation, value)`
(an external collaborator, modelled as a free constructor). -/
inductive Color : Type where
  | black : Color
  | fromHSV (hue saturation value : ℝ) : Color

/-- Source: `constexpr int screenWidth = 1280;` (main.cpp line 7). -/
def screenWidth : ℕ := 1280

/-- Source: `constexpr int screenHeight = 720;` (main.cpp line 8). -/
def screenHeight : ℕ := 720

/-- Source: `double zoomFactor = 1.1;` (main.cpp line 17). -/
def zoomFactor : ℝ := 1.1

/-- Source: `constexpr double initialViewWidthComplex = 3.5;` (main.cpp line 14). -/
def initialViewWidthComplex : ℝ := 3.5

/-- The `while (zx2 + zy2 < 4.0 && iter < maxIter)` loop of
`CalculateMandelbrot` (main.cpp lines 46-52), with `fuel = maxIter - iter`
so that `iter < maxIter` is exactly `0 < fuel`.  Arguments after the fuel:
`iter zx zy zx2 zy2`, updated exactly as in the source body
(`zy = 2*zx*zy + cy; zx = zx2 - zy2 + cx; zx2 = zx*zx; zy2 = zy*zy`). -/
def mandelLoop {K : Type} [LinearOrderedField K] (cx cy : K) :
    ℕ → ℕ → K → K → K → K → ℕ × K × K
  | 0, iter, zx, zy, _, _ => (iter, zx, zy)
  | fuel + 1, iter, zx, zy, zx2, zy2 =>
    if zx2 + zy2 < 4 then
      let zy1 := 2 * zx * zy + cy
      let zx1 := zx2 - zy2 + cx
      mandelLoop cx cy fuel (iter + 1) zx1 zy1 (zx1 * zx1) (zy1 * zy1)
    else (iter, zx, zy)

/-- Source: `CalculateMandelbrot` (main.cpp lines 28-56).  Returns the
iteration count together with the final orbit `(zx, zy)` (the two
out-parameters `zx_out, zy_out`). -/
def CalculateMandelbrot {K : Type} [LinearOrderedField K]
    (cx cy : K) (maxIter : ℕ) : ℕ × K × K :=
  let q := (cx - 0.25) * (cx - 0.25) + cy * cy
  if q * (q + (cx - 0.25)) < 0.25 * cy * cy then (maxIter, 0, 0)
  else if (cx + 1) * (cx + 1) + cy * cy < 0.0625 then (maxIter, 0, 0)
  else mandelLoop cx cy maxIter 0 0 0 0 0

/-- Source: `const double LOG2 = std::log(2.0);` (main.cpp line 58). -/
noncomputable def LOG2 : ℝ := Real.log 2

/-- C++ `static_cast<int>` applied to a `double`: truncation toward zero. -/
noncomputable def truncToInt (x : ℝ) : ℤ := if 0 ≤ x then ⌊x⌋ else ⌈x⌉

/-- C++ `std::fmod x y = x - trunc(x/y) * y`. -/
noncomputable def fmod (x y : ℝ) : ℝ := x - (truncToInt (x / y) : ℝ) * y

/-- The argument handed to the first `std::log` of the smoothing
computation, `zReal * zReal + zImag * zImag` (main.cpp line 64). -/
def logArgFirst (zReal zImag : ℝ) : ℝ := zReal * zReal + zImag * zImag

/-- The argument handed to the second `std::log` of the smoothing
computation, `log_zn / LOG2` (main.cpp line 65). -/
noncomputable def logArgSecond (zReal zImag : ℝ) : ℝ :=
  (Real.log (logArgFirst zReal zImag) / 2) / LOG2

/-- Source: `GetMandelbrotColor` (main.cpp lines 60-71).  The iteration
arguments are the nonnegative counts produced by `CalculateMandelbrot`. -/
noncomputable def GetMandelbrotColor (iterations currentMaxIterations : ℕ)
    (zReal zImag : ℝ) : Color :=
  if currentMaxIterations ≤ iterations then Color.black
  else
    let log_zn := Real.log (zReal * zReal + zImag * zImag) / 2
    let nu := Real.log (log_zn / LOG2) / LOG2
    let smoothIter := (iterations : ℝ) + 1 - nu
    Color.fromHSV (fmod (smoothIter * 0.03) 1 * 360) 0.85 0.75

/-- Source: `MapPixelToComplex` (main.cpp lines 73-78); the (lossy) final
cast of the components to `float` is elided. -/
noncomputable def MapPixelToComplex (pixelPos currentViewCenter : ℝ × ℝ)
    (currentComplexWidth : ℝ) (currentScreenWidth currentScreenHeight : ℕ) : ℝ × ℝ :=
  let scale := currentComplexWidth / currentScreenWidth
  (currentViewCenter.1 + (pixelPos.1 - currentScreenWidth / 2) * scale,
   currentViewCenter.2 - (pixelPos.2 - currentScreenHeight / 2) * scale)

/-- The mouse-wheel zoom branch of `main` (main.cpp lines 129-138),
excluding the `maxIterations` update which is `derivedMaxIterations`
below.  Returns the new `(viewCenter, viewWidthComplex)`. -/
noncomputable def zoomStep (mousePos viewCenter : ℝ × ℝ)
    (viewWidthComplex wheelMove : ℝ) : (ℝ × ℝ) × ℝ :=
  let before := MapPixelToComplex mousePos viewCenter viewWidthComplex
    screenWidth screenHeight
  let newWidth := viewWidthComplex * zoomFactor ^ (-wheelMove)
  let after := MapPixelToComplex mousePos viewCenter newWidth
    screenWidth screenHeight
  ((viewCenter.1 + (before.1 - after.1), viewCenter.2 - (before.2 - after.2)),
   newWidth)

/-- Source: `maxIterations = static_cast<int>(100.0 + 150.0 *
std::log(initialViewWidthComplex / viewWidthComplex)); if (maxIterations
< 100) maxIterations = 100;` (main.cpp lines 133-134). -/
noncomputable def derivedMaxIterations (viewWidthComplex : ℝ) : ℤ :=
  max 100 (truncToInt (100 + 150 * Real.log (initialViewWidthComplex / viewWidthComplex)))

/-- The panning branch of `main` (main.cpp lines 150-156): the new view
center computed from the pan anchor, the current mouse position and
`currentScale = viewWidthComplex / screenWidth` (main.cpp line 143). -/
noncomputable def panStep (panStartCenter panStartMouse mousePos : ℝ × ℝ)
    (viewWidthComplex : ℝ) : ℝ × ℝ :=
  let currentScale := viewWidthComplex / (screenWidth : ℝ)
  (panStartCenter.1 - (mousePos.1 - panStartMouse.1) * currentScale,
   panStartCenter.2 - (mousePos.2 - panStartMouse.2) * currentScale)

/-- The spec's stated panning formula, for comparison with `panStep`:
"recomputes `center = anchorCenter - delta * (complexWidth/pixelWidth)`
component-wise (y sign flipped per Coordinate Mapper convention)". -/
noncomputable def panStepSpec (panStartCenter panStartMouse mousePos : ℝ × ℝ)
    (viewWidthComplex : ℝ) : ℝ × ℝ :=
  let scale := viewWidthComplex / (screenWidth : ℝ)
  (panStartCenter.1 - (mousePos.1 - panStartMouse.1) * scale,
   panStartCenter.2 + (mousePos.2 - panStartMouse.2) * scale)

/-- Source: `const int rowsForThread = chunkSize + (i < remainingRows ? 1
: 0)` with `chunkSize = texHeight / nThreads` and `remainingRows =
texHeight % nThreads` (main.cpp lines 104-108). -/
def rowsForThread (texHeight nThreads i : ℕ) : ℕ :=
  texHeight / nThreads + (if i < texHeight % nThreads then 1 else 0)

/-- The value of `currentY` before band `i` is dispatched (main.cpp lines
106-112): bands are contiguous, each starting where the previous ended. -/
def bandStart (texHeight nThreads : ℕ) : ℕ → ℕ
  | 0 => 0
  | i + 1 => bandStart texHeight nThreads i + rowsForThread texHeight nThreads i

/-- Pixel-buffer indices written by the inner `x` loop of `computeRows`
for one row `y`: `y * texWidth + x` for `x = 0 .. texWidth-1`
(main.cpp lines 94-99). -/
def rowWrites (texWidth y : ℕ) : List ℕ :=
  (List.range texWidth).map (fun x => y * texWidth + x)

/-- Pixel-buffer indices written by the worker processing band `i`. -/
def bandWrites (texWidth texHeight nThreads i : ℕ) : List ℕ :=
  (List.range' (bandStart texHeight nThreads i) (rowsForThread texHeight nThreads i)).flatMap
    (rowWrites texWidth)

/-- The full sequence of pixel-buffer indices written during one pass,
over all bands in dispatch order. -/
def allBandWrites (texWidth texHeight nThreads : ℕ) : List ℕ :=
  (List.range nThreads).flatMap (bandWrites texWidth texHeight nThreads)

/-- The parameters fixed for one call of `UpdateMandelbrotTexture`
(main.cpp line 80): target texture dimensions, `centerToRender`,
`complexWidthToRender` and `iterLimit`. -/
structure RenderCtx : Type where
  texWidth : ℕ
  texHeight : ℕ
  center : ℝ × ℝ
  complexWidth : ℝ
  iterLimit : ℕ

/-- The color computed for pixel `(x, y)` by the body of the
`computeRows` lambda (main.cpp lines 95-99), with
`scale = complexWidthToRender / texWidth` (main.cpp line 83). -/
noncomputable def pixelColor (ctx : RenderCtx) (x y : ℕ) : Color :=
  let scale := ctx.complexWidth / (ctx.texWidth : ℝ)
  let cx := ctx.center.1 + ((x : ℝ) - (ctx.texWidth : ℝ) / 2) * scale
  let cy := ctx.center.2 - ((y : ℝ) - (ctx.texHeight : ℝ) / 2) * scale
  let r := CalculateMandelbrot cx cy ctx.iterLimit
  GetMandelbrotColor r.1 ctx.iterLimit r.2.1 r.2.2

/-- One store `pixelColors[y * texWidth + x] = c` into the shared buffer,
modelled as a pointwise function update. -/
def writePixel (buf : ℕ → Color) (idx : ℕ) (c : Color) : ℕ → Color :=
  fun j => if j = idx then c else buf j

/-- The inner `for (x = 0; x < texWidth; ++x)` loop of `computeRows`
restricted to the first `x` columns of row `y`; `writeRowAux ctx y
ctx.texWidth` is the whole row. -/
noncomputable def writeRowAux (ctx : RenderCtx) (y : ℕ) :
    ℕ → (ℕ → Color) → (ℕ → Color)
  | 0, buf => buf
  | x + 1, buf =>
    writePixel (writeRowAux ctx y x buf) (y * ctx.texWidth + x) (pixelColor ctx x y)

/-- The first `k` iterations of the outer `for (y = startY; y < endY;
++y)` loop of `computeRows`. -/
noncomputable def computeRowsAux (ctx : RenderCtx) (startY : ℕ) :
    ℕ → (ℕ → Color) → (ℕ → Color)
  | 0, buf => buf
  | k + 1, buf => writeRowAux ctx (startY + k) ctx.texWidth (computeRowsAux ctx startY k buf)

/-- Source: the `computeRows` lambda (main.cpp lines 92-102), processing
rows `startY ≤ y < endY` of the shared buffer. -/
noncomputable def computeRows (ctx : RenderCtx) (startY endY : ℕ)
    (buf : ℕ → Color) : ℕ → Color :=
  computeRowsAux ctx startY (endY - startY) buf

/-- The joined effect of the per-band worker threads of
`UpdateMandelbrotTexture` (main.cpp lines 104-115), the bands executed in
the order given by `order` (the workers run concurrently; since their row
ranges are disjoint, any completion order is a permutation of the band
list).  Band `i` runs `computeRows` on rows `[bandStart i, bandStart i +
rowsForThread i)`. -/
noncomputable def runBands (ctx : RenderCtx) (nThreads : ℕ) :
    List ℕ → (ℕ → Color) → (ℕ → Color)
  | [], buf => buf
  | i :: rest, buf =>
    runBands ctx nThreads rest
      (computeRows ctx (bandStart ctx.texHeight nThreads i)
        (bandStart ctx.texHeight nThreads i + rowsForThread ctx.texHeight nThreads i) buf)

/-- Modelled from the spec: `RenderRequest` (spec section 3), the
immutable snapshot taken at dispatch time.  No generation counter exists
in src/main.cpp (the spec describes the most complete of the
repository's three evolutionary versions; only this snapshot's
`generationId` matters for the publish decision). -/
structure RenderRequest : Type where
  generationId : ℕ

/-- Modelled from the spec: "After all workers join, the caller re-checks
generation equality; only if unchanged does it publish (upload/display)
the buffer.  Otherwise the buffer is silently discarded" (spec section
4.4).  `currentGeneration` is the process-wide counter read after the
join; the function returns the published buffer, if any.  This publish
re-check is not present in src/main.cpp. -/
def publishAfterJoin (currentGeneration : ℕ) (req : RenderRequest)
    (buf : List Color) : Option (List Color) :=
  if currentGeneration = req.generationId then some buf else none

/-! ## Helper lemmas about the escape-time evaluator -/

/-- A point with `cx*cx + cy*cy > 4` does not satisfy the main-cardioid
short-circuit test of `CalculateMandelbrot`. -/
theorem not_in_cardioid_of_outside {K : Type} [LinearOrderedField K] {cx cy : K}
    (h : 4 < cx * cx + cy * cy) :
    ¬(((cx - 0.25) * (cx - 0.25) + cy * cy) *
        (((cx - 0.25) * (cx - 0.25) + cy * cy) + (cx - 0.25)) < 0.25 * cy * cy) := by
  intro hc
  have hcy : cy * cy ≤ (cx - 0.25) * (cx - 0.25) + cy * cy := by
    nlinarith [mul_self_nonneg (cx - 0.25)]
  have hq0 : 0 ≤ (cx - 0.25) * (cx - 0.25) + cy * cy := by
    nlinarith [mul_self_nonneg (cx - 0.25), mul_self_nonneg cy]
  rcases eq_or_lt_of_le hq0 with hq | hqpos
  · nlinarith [mul_self_nonneg cy]
  · have h14 : ((cx - 0.25) * (cx - 0.25) + cy * cy) *
        (((cx - 0.25) * (cx - 0.25) + cy * cy) + (cx - 0.25)) <
        ((cx - 0.25) * (cx - 0.25) + cy * cy) * (1 / 4) := by nlinarith
    have hlt : ((cx - 0.25) * (cx - 0.25) + cy * cy) + (cx - 0.25) < 1 / 4 :=
      (mul_lt_mul_left hqpos).mp h14
    have h1 : (0 : K) < -cx - 57 / 8 := by nlinarith [mul_self_nonneg cy]
    have h2 : (0 : K) < -(cx + 1 / 2) := by linarith
    nlinarith [mul_pos h1 h2, mul_self_nonneg cy]

/-- A point with `cx*cx + cy*cy > 4` does not satisfy the period-2 bulb
short-circuit test of `CalculateMandelbrot`. -/
theorem not_in_bulb_of_outside {K : Type} [LinearOrderedField K] {cx cy : K}
    (h : 4 < cx * cx + cy * cy) :
    ¬((cx + 1) * (cx + 1) + cy * cy < 0.0625) := by
  intro hb
  have h2 : (0 : K) < -(cx + 1) - 47 / 32 := by nlinarith [mul_self_nonneg cy]
  have h3 : (0 : K) < 47 / 32 - (cx + 1) := by linarith
  nlinarith [mul_pos h2 h3, mul_self_nonneg cy]

/-- If the iteration loop stops before exhausting its fuel, the final
orbit has squared magnitude at least `4` (the loop's exit test). -/
theorem mandelLoop_escaped {K : Type} [LinearOrderedField K] (cx cy : K) :
    ∀ (fuel iter : ℕ) (zx zy zx2 zy2 : K), zx2 = zx * zx → zy2 = zy * zy →
      (mandelLoop cx cy fuel iter zx zy zx2 zy2).1 < iter + fuel →
      4 ≤ (mandelLoop cx cy fuel iter zx zy zx2 zy2).2.1 *
            (mandelLoop cx cy fuel iter zx zy zx2 zy2).2.1 +
          (mandelLoop cx cy fuel iter zx zy zx2 zy2).2.2 *
            (mandelLoop cx cy fuel iter zx zy zx2 zy2).2.2 := by
  intro fuel
  induction fuel with
  | zero =>
    intro iter zx zy zx2 zy2 _ _ hlt
    simp only [mandelLoop] at hlt
    omega
  | succ fuel ih =>
    intro iter zx zy zx2 zy2 h2x h2y hlt
    simp only [mandelLoop] at hlt ⊢
    by_cases h4 : zx2 + zy2 < 4
    · rw [if_pos h4] at hlt ⊢
      exact ih (iter + 1) _ _ _ _ rfl rfl (by omega)
    · rw [if_neg h4] at hlt ⊢
      rw [h2x, h2y] at h4
      linarith [not_lt.mp h4]

/-- If `CalculateMandelbrot` returns an iteration count strictly below the
cap, the returned orbit has squared magnitude at least `4`. -/
theorem calc_escaped_normsq {K : Type} [LinearOrderedField K] (cx cy : K) (N : ℕ)
    (h : (CalculateMandelbrot cx cy N).1 < N) :
    4 ≤ (CalculateMandelbrot cx cy N).2.1 * (CalculateMandelbrot cx cy N).2.1 +
        (CalculateMandelbrot cx cy N).2.2 * (CalculateMandelbrot cx cy N).2.2 := by
  simp only [CalculateMandelbrot] at h ⊢
  by_cases h1 : ((cx - 0.25) * (cx - 0.25) + cy * cy) *
      ((cx - 0.25) * (cx - 0.25) + cy * cy + (cx - 0.25)) < 0.25 * cy * cy
  · rw [if_pos h1] at h
    simp at h
  · rw [if_neg h1] at h ⊢
    by_cases h2 : (cx + 1) * (cx + 1) + cy * cy < 0.0625
    · rw [if_pos h2] at h
      simp at h
    · rw [if_neg h2] at h ⊢
      exact mandelLoop_escaped cx cy N 0 0 0 0 0 (by norm_num) (by norm_num)
        (by omega)

/-! ## Claim theorems: escape-time evaluator -/

/-- C3: every complex coordinate satisfying the main-cardioid formula
`q*(q+(cx-0.25)) < 0.25*cy^2` (with `q = (cx-0.25)^2 + cy^2`) or the
period-2 bulb formula `(cx+1)^2 + cy^2 < 0.0625` makes `CalculateMandelbrot`
return exactly the iteration cap `N` with final orbit `(0, 0)`, via the
short-circuit branches, for every cap `N`. -/
theorem interior_shortcircuit_returns_cap (K : Type) [LinearOrderedField K]
    (cx cy : K) (N : ℕ)
    (h : (((cx - 0.25) * (cx - 0.25) + cy * cy) *
            (((cx - 0.25) * (cx - 0.25) + cy * cy) + (cx - 0.25)) < 0.25 * cy * cy) ∨
         ((cx + 1) * (cx + 1) + cy * cy < 0.0625)) :
    CalculateMandelbrot cx cy N = (N, 0, 0) := by
  simp only [CalculateMandelbrot]
  split
  · rfl
  next hcard =>
    split
    · rfl
    next hbulb =>
      rcases h with h | h
      · exact absurd h hcard
      · exact absurd h hbulb

/-- Witness for C3 at the cardioid point `c = (0, 0)` with cap `7`. -/
theorem interior_shortcircuit_witness :
    CalculateMandelbrot (0 : ℚ) 0 7 = (7, 0, 0) :=
  interior_shortcircuit_returns_cap ℚ 0 0 7 (Or.inl (by norm_num))

/-- C8: every complex coordinate outside the escape radius
(`cx*cx + cy*cy > 4`, i.e. `|c| > 2`) escapes at iteration 0 or 1: for any
cap `N ≥ 1`, `CalculateMandelbrot` returns an iteration count of at most 1. -/
theorem outside_radius_escapes_immediately (K : Type) [LinearOrderedField K]
    (cx cy : K) (N : ℕ) (hc : 4 < cx * cx + cy * cy) (hN : 1 ≤ N) :
    (CalculateMandelbrot cx cy N).1 ≤ 1 := by
  obtain ⟨m, rfl⟩ : ∃ m, N = m + 1 := ⟨N - 1, by omega⟩
  simp only [CalculateMandelbrot]
  rw [if_neg (not_in_cardioid_of_outside hc), if_neg (not_in_bulb_of_outside hc)]
  have step1 : mandelLoop cx cy (m + 1) 0 0 0 (0 : K) 0 =
      mandelLoop cx cy m 1 cx cy (cx * cx) (cy * cy) := by
    simp only [mandelLoop]
    rw [if_pos (by norm_num)]
    norm_num
  rw [step1]
  rcases m with _ | m
  · simp [mandelLoop]
  · simp only [mandelLoop]
    rw [if_neg (by linarith)]

/-- Witness for C8 at `c = (2, 2)` (so `|c|^2 = 8 > 4`) with cap `5`. -/
theorem outside_radius_witness : (CalculateMandelbrot (2 : ℚ) 2 5).1 ≤ 1 :=
  outside_radius_escapes_immediately ℚ 2 2 5 (by norm_num) (by norm_num)

/-- C9: whenever `CalculateMandelbrot` returns an iteration count strictly
below the cap `N` (the escaped, non-short-circuited branch), the returned
orbit satisfies `zReal^2 + zImag^2 ≥ 4`; hence
`log_zn = ln(zReal^2+zImag^2)/2 ≥ ln 2 > 0` and `log_zn/ln 2 ≥ 1 > 0`, so
both logarithms of the smoothing computation receive strictly positive
arguments on every color actually computed from an evaluator result. -/
theorem escaped_orbit_log_positive (cx cy : ℝ) (N : ℕ)
    (h : (CalculateMandelbrot cx cy N).1 < N) :
    4 ≤ (CalculateMandelbrot cx cy N).2.1 * (CalculateMandelbrot cx cy N).2.1 +
        (CalculateMandelbrot cx cy N).2.2 * (CalculateMandelbrot cx cy N).2.2 ∧
    Real.log 2 ≤ Real.log ((CalculateMandelbrot cx cy N).2.1 * (CalculateMandelbrot cx cy N).2.1 +
        (CalculateMandelbrot cx cy N).2.2 * (CalculateMandelbrot cx cy N).2.2) / 2 ∧
    0 < Real.log ((CalculateMandelbrot cx cy N).2.1 * (CalculateMandelbrot cx cy N).2.1 +
        (CalculateMandelbrot cx cy N).2.2 * (CalculateMandelbrot cx cy N).2.2) / 2 ∧
    1 ≤ Real.log ((CalculateMandelbrot cx cy N).2.1 * (CalculateMandelbrot cx cy N).2.1 +
        (CalculateMandelbrot cx cy N).2.2 * (CalculateMandelbrot cx cy N).2.2) / 2 / Real.log 2 ∧
    0 < Real.log ((CalculateMandelbrot cx cy N).2.1 * (CalculateMandelbrot cx cy N).2.1 +
        (CalculateMandelbrot cx cy N).2.2 * (CalculateMandelbrot cx cy N).2.2) / 2 / Real.log 2 := by
  have h4 := calc_escaped_normsq cx cy N h
  have hlog2 : 0 < Real.log 2 := Real.log_pos (by norm_num)
  have hl : Real.log 4 ≤ Real.log ((CalculateMandelbrot cx cy N).2.1 * (CalculateMandelbrot cx cy N).2.1 +
      (CalculateMandelbrot cx cy N).2.2 * (CalculateMandelbrot cx cy N).2.2) :=
    Real.log_le_log (by norm_num) h4
  have l4 : Real.log 4 = 2 * Real.log 2 := by
    rw [show (4 : ℝ) = 2 ^ 2 by norm_num, Real.log_pow]
    push_cast
    ring
  have hlzn : Real.log 2 ≤ Real.log ((CalculateMandelbrot cx cy N).2.1 * (CalculateMandelbrot cx cy N).2.1 +
      (CalculateMandelbrot cx cy N).2.2 * (CalculateMandelbrot cx cy N).2.2) / 2 := by
    linarith
  have hpos : 0 < Real.log ((CalculateMandelbrot cx cy N).2.1 * (CalculateMandelbrot cx cy N).2.1 +
      (CalculateMandelbrot cx cy N).2.2 * (CalculateMandelbrot cx cy N).2.2) / 2 :=
    lt_of_lt_of_le hlog2 hlzn
  have hone : 1 ≤ Real.log ((CalculateMandelbrot cx cy N).2.1 * (CalculateMandelbrot cx cy N).2.1 +
      (CalculateMandelbrot cx cy N).2.2 * (CalculateMandelbrot cx cy N).2.2) / 2 / Real.log 2 :=
    (one_le_div hlog2).mpr hlzn
  exact ⟨h4, hlzn, hpos, hone, lt_of_lt_of_le zero_lt_one hone⟩

/-- Witness for C9 at `c = (3, 0)` with cap `5`: the evaluator escapes at
iteration 1 with orbit `(3, 0)`. -/
theorem escaped_orbit_log_witness :
    (CalculateMandelbrot (3 : ℝ) 0 5).1 < 5 ∧
    4 ≤ (CalculateMandelbrot (3 : ℝ) 0 5).2.1 * (CalculateMandelbrot (3 : ℝ) 0 5).2.1 +
        (CalculateMandelbrot (3 : ℝ) 0 5).2.2 * (CalculateMandelbrot (3 : ℝ) 0 5).2.2 :=
  ⟨by norm_num [CalculateMandelbrot, mandelLoop],
   (escaped_orbit_log_positive 3 0 5 (by norm_num [CalculateMandelbrot, mandelLoop])).1⟩

/-- C5 (counterexample): the smoothing computation applies no clamp.  At
the input `(iterations, N, zReal, zImag) = (0, 1, 0, 0)` (so `iterations <
N`), `GetMandelbrotColor` takes the non-black branch and the argument of
the first logarithm, `zReal*zReal + zImag*zImag`, is `0` — not bounded
below by any positive floor (in particular not by the spec's example floor
`1e-10`). -/
theorem smoothing_log_arg_unclamped :
    (0 : ℕ) < 1 ∧ GetMandelbrotColor 0 1 0 0 ≠ Color.black ∧
    logArgFirst 0 0 = 0 ∧ ¬(1e-10 ≤ logArgFirst 0 0) := by
  refine ⟨by norm_num, ?_, by norm_num [logArgFirst], by norm_num [logArgFirst]⟩
  simp [GetMandelbrotColor]

/-- C5 (amended): no clamp is applied to the logarithm arguments; instead,
for every input that the escape-time evaluator actually produces with
`iterations < N`, both logarithm arguments of the smoothing computation
(`logArgFirst`, `logArgSecond`, the exact expressions handed to the two
`std::log` calls) are strictly positive, so no invalid value arises on the
program's actual path. -/
theorem smoothing_log_args_pos_on_escape (cx cy : ℝ) (N : ℕ)
    (h : (CalculateMandelbrot cx cy N).1 < N) :
    0 < logArgFirst (CalculateMandelbrot cx cy N).2.1 (CalculateMandelbrot cx cy N).2.2 ∧
    0 < logArgSecond (CalculateMandelbrot cx cy N).2.1 (CalculateMandelbrot cx cy N).2.2 := by
  have h4 := calc_escaped_normsq cx cy N h
  have hfirst : 0 < logArgFirst (CalculateMandelbrot cx cy N).2.1 (CalculateMandelbrot cx cy N).2.2 := by
    unfold logArgFirst
    linarith
  refine ⟨hfirst, ?_⟩
  unfold logArgSecond LOG2
  have hlog : 0 < Real.log (logArgFirst (CalculateMandelbrot cx cy N).2.1
      (CalculateMandelbrot cx cy N).2.2) := by
    apply Real.log_pos
    unfold logArgFirst at *
    linarith
  exact div_pos (div_pos hlog (by norm_num)) (Real.log_pos (by norm_num))

/-- Witness for C5's amended theorem at `c = (-3, 0)` with cap `5`. -/
theorem smoothing_log_args_pos_witness :
    (CalculateMandelbrot (-3 : ℝ) 0 5).1 < 5 ∧
    0 < logArgFirst (CalculateMandelbrot (-3 : ℝ) 0 5).2.1 (CalculateMandelbrot (-3 : ℝ) 0 5).2.2 :=
  ⟨by norm_num [CalculateMandelbrot, mandelLoop],
   (smoothing_log_args_pos_on_escape (-3) 0 5
      (by norm_num [CalculateMandelbrot, mandelLoop])).1⟩

/-! ## Claim theorems: generation-based publish gate (modelled from the spec) -/

/-- C1: if the process-wide generation counter is incremented (by any
positive amount) between dispatch — when the RenderRequest captured
`generationId = gen` — and the post-join re-check, the pass's buffer is
not published; if the counter is unchanged, the buffer is published. -/
theorem generation_mismatch_not_published (gen incr : ℕ) (buf : List Color)
    (h : 0 < incr) :
    publishAfterJoin (gen + incr) ⟨gen⟩ buf = none ∧
    publishAfterJoin gen ⟨gen⟩ buf = some buf := by
  have hg : (RenderRequest.mk gen).generationId = gen := rfl
  constructor
  · unfold publishAfterJoin
    rw [hg, if_neg (by omega)]
  · unfold publishAfterJoin
    rw [hg, if_pos rfl]

/-- Witness for C1 with `gen = 0`, one increment, and an empty buffer. -/
theorem generation_mismatch_witness :
    publishAfterJoin (0 + 1) ⟨0⟩ [] = none ∧ publishAfterJoin 0 ⟨0⟩ [] = some [] :=
  generation_mismatch_not_published 0 1 [] (by norm_num)

/-! ## Claim theorems: iteration cap derivation -/

/-- Truncation toward zero is monotone. -/
theorem truncToInt_mono {x y : ℝ} (h : x ≤ y) : truncToInt x ≤ truncToInt y := by
  unfold truncToInt
  by_cases hx : 0 ≤ x
  · rw [if_pos hx, if_pos (le_trans hx h)]
    exact Int.floor_le_floor h
  · by_cases hy : 0 ≤ y
    · rw [if_neg hx, if_pos hy]
      calc ⌈x⌉ ≤ ⌈(0 : ℝ)⌉ := Int.ceil_le_ceil (le_of_not_le hx)
        _ = 0 := by simp
        _ ≤ ⌊y⌋ := Int.floor_nonneg.mpr hy
    · rw [if_neg hx, if_neg hy]
      exact Int.ceil_le_ceil h

/-- C6: the iteration cap is derived from the view width as
`max(100, trunc(100 + 150 * ln(initialViewWidthComplex / width)))`
(`derivedMaxIterations`), and along any zoom-in (width decrease,
`0 < w' ≤ w`) the cap is non-decreasing and never falls below the
configured floor of 100. -/
theorem maxIterations_monotone_floored (w w' : ℝ) (h0 : 0 < w') (hle : w' ≤ w) :
    derivedMaxIterations w ≤ derivedMaxIterations w' ∧
    100 ≤ derivedMaxIterations w ∧ 100 ≤ derivedMaxIterations w' := by
  refine ⟨?_, le_max_left _ _, le_max_left _ _⟩
  unfold derivedMaxIterations
  apply max_le_max le_rfl
  apply truncToInt_mono
  have hi : (0 : ℝ) < initialViewWidthComplex := by norm_num [initialViewWidthComplex]
  have hw : 0 < w := lt_of_lt_of_le h0 hle
  have hdiv : initialViewWidthComplex / w ≤ initialViewWidthComplex / w' := by gcongr
  have hlog : Real.log (initialViewWidthComplex / w) ≤
      Real.log (initialViewWidthComplex / w') :=
    Real.log_le_log (by positivity) hdiv
  linarith

/-- Witness for C6: zooming from width `3.5` to width `1`. -/
theorem maxIterations_monotone_witness :
    derivedMaxIterations 3.5 ≤ derivedMaxIterations 1 ∧
    100 ≤ derivedMaxIterations 3.5 ∧ 100 ≤ derivedMaxIterations 1 :=
  maxIterations_monotone_floored 3.5 1 (by norm_num) (by norm_num)

/-! ## Claim theorems: zoom-to-cursor and panning -/

/-- C2 (counterexample): with the cursor at pixel `(0, 0)`, view center
`(0, 0)`, width `3.5` and wheel magnitude `-1`, the cursor's mapped
imaginary component before the zoom is `63/64 ≈ 0.984`, but re-mapping the
same pixel through the post-zoom view state yields `189/160 ≈ 1.181` — a
gap of `63/320 ≈ 0.197`, far outside floating-point tolerance.  (The
`viewCenter.y -= ...` update of main.cpp line 138 reflects rather than
fixes the `MapPixelToComplex` imaginary component.) -/
theorem zoom_cursor_y_not_fixed :
    (MapPixelToComplex (0, 0) (zoomStep (0, 0) ((0 : ℝ), (0 : ℝ)) 3.5 (-1)).1
        (zoomStep (0, 0) ((0 : ℝ), (0 : ℝ)) 3.5 (-1)).2 screenWidth screenHeight).2 = 189 / 160 ∧
    (MapPixelToComplex (0, 0) ((0 : ℝ), (0 : ℝ)) 3.5 screenWidth screenHeight).2 = 63 / 64 ∧
    ((189 : ℝ) / 160) ≠ 63 / 64 := by
  have hz : zoomFactor ^ (-(-1 : ℝ)) = (1.1 : ℝ) := by
    unfold zoomFactor
    rw [neg_neg, Real.rpow_one]
  refine ⟨?_, ?_, by norm_num⟩
  · simp only [zoomStep, MapPixelToComplex, screenWidth, screenHeight, hz]
    norm_num
  · simp only [MapPixelToComplex, screenWidth, screenHeight]
    norm_num

/-- C2 (amended): after a zoom, re-mapping the cursor pixel through the
updated view state reproduces the pre-zoom complex point exactly in its
real component, while the imaginary component is reflected about the
post-zoom cursor point (`new = 2*after - before`); it therefore stays
fixed only when the cursor sits on the horizontal midline.  (The
unflipped `y` update compensates the vertical flip applied when the
texture is drawn, main.cpp line 174.) -/
theorem zoom_fixes_x_reflects_y (mousePos viewCenter : ℝ × ℝ) (W wheel : ℝ) :
    (MapPixelToComplex mousePos (zoomStep mousePos viewCenter W wheel).1
        (zoomStep mousePos viewCenter W wheel).2 screenWidth screenHeight).1 =
      (MapPixelToComplex mousePos viewCenter W screenWidth screenHeight).1 ∧
    (MapPixelToComplex mousePos (zoomStep mousePos viewCenter W wheel).1
        (zoomStep mousePos viewCenter W wheel).2 screenWidth screenHeight).2 =
      2 * (MapPixelToComplex mousePos viewCenter
          (zoomStep mousePos viewCenter W wheel).2 screenWidth screenHeight).2 -
        (MapPixelToComplex mousePos viewCenter W screenWidth screenHeight).2 := by
  simp only [zoomStep, MapPixelToComplex]
  constructor <;> ring

/-- C7 (counterexample): the pan update does not flip the y sign.  With
anchor center `(0, 0)`, anchor mouse `(0, 0)`, current mouse `(0, 128)`
and width `1280` (so `scale = 1`), the code computes the new center's
imaginary component as `-128`, whereas the claimed formula (y sign flipped
relative to x) yields `+128`. -/
theorem pan_y_sign_not_flipped :
    (panStep (0, 0) (0, 0) (0, 128) 1280).2 = -128 ∧
    (panStepSpec (0, 0) (0, 0) (0, 128) 1280).2 = 128 ∧
    ((-128 : ℝ)) ≠ 128 := by
  refine ⟨?_, ?_, by norm_num⟩
  · simp only [panStep, screenWidth]
    norm_num
  · simp only [panStepSpec, screenWidth]
    norm_num

/-- C7 (amended): in the Panning state the new center is computed as
`center = anchorCenter - delta * (complexWidth/pixelWidth)` with the SAME
sign in both components (no y flip).  Consequently the complex point under
the moving cursor, as given by `MapPixelToComplex`, is preserved in its
real component but shifted by `-2 * deltaY * scale` in its imaginary
component (consistent with the vertically flipped texture draw). -/
theorem pan_fixes_x_reflects_y (panStartCenter panStartMouse mousePos : ℝ × ℝ)
    (W : ℝ) :
    (MapPixelToComplex mousePos (panStep panStartCenter panStartMouse mousePos W)
        W screenWidth screenHeight).1 =
      (MapPixelToComplex panStartMouse panStartCenter W screenWidth screenHeight).1 ∧
    (MapPixelToComplex mousePos (panStep panStartCenter panStartMouse mousePos W)
        W screenWidth screenHeight).2 =
      (MapPixelToComplex panStartMouse panStartCenter W screenWidth screenHeight).2 -
        2 * (mousePos.2 - panStartMouse.2) * (W / (screenWidth : ℝ)) := by
  simp only [panStep, MapPixelToComplex]
  constructor <;> ring

/-! ## Helper lemmas about the row-band partition -/

/-- Closed form for the start row of band `m`. -/
theorem bandStart_closed (h n : ℕ) :
    ∀ m, bandStart h n m = m * (h / n) + min m (h % n) := by
  intro m
  induction m with
  | zero => simp [bandStart]
  | succ i ih =>
    simp only [bandStart, rowsForThread, ih, Nat.succ_mul]
    split <;> omega

/-- With at least one worker, the bands exactly exhaust the rows. -/
theorem bandStart_top (h n : ℕ) (hn : 1 ≤ n) : bandStart h n n = h := by
  rw [bandStart_closed]
  have h1 : h % n < n := Nat.mod_lt _ (by omega)
  have h2 : n * (h / n) + h % n = h := Nat.div_add_mod h n
  rw [min_eq_right (le_of_lt h1)]
  exact h2

/-- Band start rows are monotone in the band index. -/
theorem bandStart_mono (h n : ℕ) : Monotone (bandStart h n) :=
  monotone_nat_of_le_succ fun i => by
    simp only [bandStart]
    exact Nat.le_add_right _ _

/-- Every row below `bandStart h n m` lies in one of the first `m` bands. -/
theorem exists_band_aux (h n : ℕ) (y : ℕ) :
    ∀ m, y < bandStart h n m →
      ∃ i, i < m ∧ bandStart h n i ≤ y ∧
        y < bandStart h n i + rowsForThread h n i := by
  intro m
  induction m with
  | zero =>
    intro hy
    simp [bandStart] at hy
  | succ k ih =>
    intro hy
    by_cases hk : y < bandStart h n k
    · obtain ⟨i, hi, h1, h2⟩ := ih hk
      exact ⟨i, by omega, h1, h2⟩
    · refine ⟨k, by omega, by omega, ?_⟩
      have hs : bandStart h n (k + 1) = bandStart h n k + rowsForThread h n k := by
        simp [bandStart]
      omega

/-- Row coverage: every target row lies in some band. -/
theorem exists_band (h n : ℕ) (hn : 1 ≤ n) {y : ℕ} (hy : y < h) :
    ∃ i, i < n ∧ bandStart h n i ≤ y ∧
      y < bandStart h n i + rowsForThread h n i :=
  exists_band_aux h n y n (by rw [bandStart_top h n hn]; exact hy)

/-- No overlap: a row lies in at most one band. -/
theorem band_unique (h n : ℕ) {y i j : ℕ}
    (hi1 : bandStart h n i ≤ y) (hi2 : y < bandStart h n i + rowsForThread h n i)
    (hj1 : bandStart h n j ≤ y) (hj2 : y < bandStart h n j + rowsForThread h n j) :
    i = j := by
  by_contra hne
  rcases Nat.lt_or_ge i j with hlt | hge
  · have hm : bandStart h n (i + 1) ≤ bandStart h n j := bandStart_mono h n (by omega)
    have hs : bandStart h n (i + 1) = bandStart h n i + rowsForThread h n i := by
      simp [bandStart]
    omega
  · have hlt : j < i := by omega
    have hm : bandStart h n (j + 1) ≤ bandStart h n i := bandStart_mono h n (by omega)
    have hs : bandStart h n (j + 1) = bandStart h n j + rowsForThread h n j := by
      simp [bandStart]
    omega

/-- The rows of the first `m` bands, concatenated in dispatch order, are
exactly the contiguous range `[0, bandStart h n m)`. -/
theorem bands_flatMap_rows (h n : ℕ) :
    ∀ m, (List.range m).flatMap
        (fun i => List.range' (bandStart h n i) (rowsForThread h n i)) =
      List.range' 0 (bandStart h n m) := by
  intro m
  induction m with
  | zero => simp [bandStart]
  | succ k ih =>
    rw [List.range_succ, List.flatMap_append, ih]
    simp only [List.flatMap_cons, List.flatMap_nil, List.append_nil]
    have happ := List.range'_append 0 (bandStart h n k) (rowsForThread h n k) 1
    simp only [Nat.zero_add, Nat.one_mul] at happ
    rw [happ]
    have hs : bandStart h n (k + 1) = bandStart h n k + rowsForThread h n k := by
      simp [bandStart]
    rw [hs, Nat.add_comm]

/-- The pixel indices of the first `m` rows, concatenated top-to-bottom,
are exactly the contiguous range `[0, m * w)`. -/
theorem rows_flatMap_writes (w : ℕ) :
    ∀ m, (List.range' 0 m).flatMap (rowWrites w) = List.range' 0 (m * w) := by
  intro m
  induction m with
  | zero => simp
  | succ k ih =>
    have hr : List.range' 0 (k + 1) = List.range' 0 k ++ [k] := by
      have := List.range'_append 0 k 1 1
      simp only [Nat.zero_add, Nat.one_mul, List.range'_one] at this
      rw [Nat.add_comm 1 k] at this
      rw [← this]
    rw [hr, List.flatMap_append, ih]
    simp only [List.flatMap_cons, List.flatMap_nil, List.append_nil]
    have hrow : rowWrites w k = List.range' (k * w) w := by
      rw [rowWrites, List.range'_eq_map_range]
    rw [hrow]
    have happ := List.range'_append 0 (k * w) w 1
    simp only [Nat.zero_add, Nat.one_mul] at happ
    rw [happ, Nat.succ_mul, Nat.add_comm w (k * w)]

/-- The complete write sequence of one pass enumerates every pixel index
exactly once, in row-major order. -/
theorem allBandWrites_eq_range (w h n : ℕ) (hn : 1 ≤ n) :
    allBandWrites w h n = List.range (w * h) := by
  unfold allBandWrites bandWrites
  rw [← List.flatMap_assoc, bands_flatMap_rows, bandStart_top h n hn,
    rows_flatMap_writes, List.range_eq_range', Nat.mul_comm]

/-! ## Claim theorem: band partition completeness -/

/-- C4: for every `(height, workerCount)` with `workerCount ≥ 1`
(including `height < workerCount`), the row-band partition of
`UpdateMandelbrotTexture` assigns contiguous bands that exhaust all rows
(`bandStart h n n = h`), gives the first `h % n` bands one extra row
(remainder rows to the first bands), writes every pixel of the
`w * h` buffer exactly once (the concatenated write sequence is exactly
`List.range (w * h)`), and covers every row by exactly one band (no gaps,
no overlaps). -/
theorem band_partition_complete (w h n : ℕ) (hn : 1 ≤ n) :
    bandStart h n n = h ∧
    (∀ i, i < h % n → rowsForThread h n i = h / n + 1) ∧
    (∀ i, h % n ≤ i → rowsForThread h n i = h / n) ∧
    allBandWrites w h n = List.range (w * h) ∧
    (∀ y, y < h → ∃! i, i < n ∧ bandStart h n i ≤ y ∧
      y < bandStart h n i + rowsForThread h n i) := by
  refine ⟨bandStart_top h n hn, ?_, ?_, allBandWrites_eq_range w h n hn, ?_⟩
  · intro i hi
    simp [rowsForThread, hi]
  · intro i hi
    simp [rowsForThread, Nat.not_lt.mpr hi]
  · intro y hy
    obtain ⟨i, hi, h1, h2⟩ := exists_band h n hn hy
    exact ⟨i, ⟨hi, h1, h2⟩,
      fun j hj => band_unique h n hj.2.1 hj.2.2 h1 h2⟩

/-- Witness for C4 with `w = 2`, `h = 3`, `n = 5` (more workers than
rows): the write sequence is exactly `List.range 6`. -/
theorem band_partition_witness : allBandWrites 2 3 5 = List.range (2 * 3) :=
  (band_partition_complete 2 3 5 (by norm_num)).2.2.2.1

/-! ## Helper lemmas about the rasterizer's buffer writes -/

/-- Pointwise description of one partially processed row: index `i` holds
the computed color iff it lies among the first `x` pixels of row `y`. -/
theorem writeRowAux_apply (ctx : RenderCtx) (y : ℕ) :
    ∀ (x : ℕ) (buf : ℕ → Color) (i : ℕ),
      writeRowAux ctx y x buf i =
        if y * ctx.texWidth ≤ i ∧ i < y * ctx.texWidth + x then
          pixelColor ctx (i - y * ctx.texWidth) y
        else buf i := by
  intro x
  induction x with
  | zero =>
    intro buf i
    simp only [writeRowAux]
    rw [if_neg (by generalize y * ctx.texWidth = B; omega)]
  | succ x ih =>
    intro buf i
    simp only [writeRowAux, writePixel]
    rw [ih]
    by_cases hi : i = y * ctx.texWidth + x
    · rw [if_pos hi, if_pos (by revert hi; generalize y * ctx.texWidth = B; omega)]
      congr 1
      revert hi
      generalize y * ctx.texWidth = B
      omega
    · rw [if_neg hi]
      by_cases hc : y * ctx.texWidth ≤ i ∧ i < y * ctx.texWidth + x
      · rw [if_pos hc, if_pos (by revert hc; generalize y * ctx.texWidth = B; omega)]
      · rw [if_neg hc, if_neg (by revert hi hc; generalize y * ctx.texWidth = B; omega)]

/-- Pointwise description of `k` processed rows starting at row `s`:
index `i` holds the computed color of pixel `(i % w, i / w)` iff it lies
in the contiguous index interval `[s*w, (s+k)*w)`. -/
theorem computeRowsAux_apply (ctx : RenderCtx) (s : ℕ) :
    ∀ (k : ℕ) (buf : ℕ → Color) (i : ℕ),
      computeRowsAux ctx s k buf i =
        if s * ctx.texWidth ≤ i ∧ i < (s + k) * ctx.texWidth then
          pixelColor ctx (i % ctx.texWidth) (i / ctx.texWidth)
        else buf i := by
  intro k
  induction k with
  | zero =>
    intro buf i
    simp only [computeRowsAux, Nat.add_zero]
    rw [if_neg (by generalize s * ctx.texWidth = B; omega)]
  | succ k ih =>
    intro buf i
    have e1 : (s + (k + 1)) * ctx.texWidth = (s + k) * ctx.texWidth + ctx.texWidth := by
      ring
    simp only [computeRowsAux]
    rw [writeRowAux_apply, ih]
    by_cases hrow : (s + k) * ctx.texWidth ≤ i ∧ i < (s + k) * ctx.texWidth + ctx.texWidth
    · rw [if_pos hrow]
      have hw : 0 < ctx.texWidth := by
        rcases Nat.eq_zero_or_pos ctx.texWidth with h0 | h0
        · exfalso
          rcases hrow with ⟨ha, hb⟩
          rw [h0, Nat.mul_zero, Nat.add_zero] at hb
          rw [h0, Nat.mul_zero] at ha
          omega
        · exact h0
      obtain ⟨r, hrlt, rfl⟩ : ∃ r, r < ctx.texWidth ∧ i = ctx.texWidth * (s + k) + r := by
        refine ⟨i - (s + k) * ctx.texWidth, ?_, ?_⟩
        · revert hrow
          generalize (s + k) * ctx.texWidth = B
          omega
        · rw [Nat.mul_comm]
          revert hrow
          generalize (s + k) * ctx.texWidth = B
          omega
      have hdiv : (ctx.texWidth * (s + k) + r) / ctx.texWidth = s + k := by
        rw [Nat.mul_add_div hw, Nat.div_eq_of_lt hrlt, Nat.add_zero]
      have hmod : (ctx.texWidth * (s + k) + r) % ctx.texWidth = r := by
        rw [Nat.mul_add_mod, Nat.mod_eq_of_lt hrlt]
      rw [if_pos ?_]
      · rw [hdiv, hmod]
        congr 1
        rw [Nat.mul_comm ctx.texWidth (s + k), Nat.add_sub_cancel_left]
      · constructor
        · exact le_trans (Nat.mul_le_mul_right _ (Nat.le_add_right s k))
            (by rw [Nat.mul_comm]; exact Nat.le_add_right _ _)
        · rw [e1, Nat.mul_comm (s + k) ctx.texWidth]
          exact Nat.add_lt_add_left hrlt _
    · rw [if_neg hrow]
      by_cases hc : s * ctx.texWidth ≤ i ∧ i < (s + k) * ctx.texWidth
      · rw [if_pos hc, if_pos ⟨hc.1, lt_of_lt_of_le hc.2
          (by rw [e1]; exact Nat.le_add_right _ _)⟩]
      · rw [if_neg hc, if_neg ?_]
        rintro ⟨ha, hb⟩
        rw [e1] at hb
        by_cases hlt : i < (s + k) * ctx.texWidth
        · exact hc ⟨ha, hlt⟩
        · exact hrow ⟨Nat.le_of_not_lt hlt, hb⟩

/-- Pointwise description of a band running `computeRows` on rows
`[s, s + k)` (the form used when dispatching band workers). -/
theorem computeRows_band_apply (ctx : RenderCtx) (s k : ℕ) (buf : ℕ → Color)
    (i : ℕ) :
    computeRows ctx s (s + k) buf i =
      if s * ctx.texWidth ≤ i ∧ i < (s + k) * ctx.texWidth then
        pixelColor ctx (i % ctx.texWidth) (i / ctx.texWidth)
      else buf i := by
  unfold computeRows
  rw [Nat.add_sub_cancel_left]
  exact computeRowsAux_apply ctx s k buf i

/-- Pointwise description of a joined set of band workers, run in any
order: index `i` holds the computed color iff some listed band's row range
contains it; the value is independent of the order and of which band wrote
it. -/
theorem runBands_apply (ctx : RenderCtx) (n : ℕ) :
    ∀ (order : List ℕ) (buf : ℕ → Color) (i : ℕ),
      runBands ctx n order buf i =
        if ∃ j ∈ order, bandStart ctx.texHeight n j * ctx.texWidth ≤ i ∧
            i < (bandStart ctx.texHeight n j + rowsForThread ctx.texHeight n j) *
              ctx.texWidth then
          pixelColor ctx (i % ctx.texWidth) (i / ctx.texWidth)
        else buf i := by
  intro order
  induction order with
  | nil =>
    intro buf i
    simp [runBands]
  | cons j rest ih =>
    intro buf i
    simp only [runBands]
    rw [ih, computeRows_band_apply]
    by_cases hrest : ∃ j' ∈ rest,
        bandStart ctx.texHeight n j' * ctx.texWidth ≤ i ∧
        i < (bandStart ctx.texHeight n j' + rowsForThread ctx.texHeight n j') *
          ctx.texWidth
    · rw [if_pos hrest, if_pos ?_]
      obtain ⟨j', hj1, hj2⟩ := hrest
      exact ⟨j', List.mem_cons_of_mem _ hj1, hj2⟩
    · rw [if_neg hrest]
      by_cases hj : bandStart ctx.texHeight n j * ctx.texWidth ≤ i ∧
          i < (bandStart ctx.texHeight n j + rowsForThread ctx.texHeight n j) *
            ctx.texWidth
      · rw [if_pos hj, if_pos ⟨j, List.mem_cons_self j rest, hj⟩]
      · rw [if_neg hj, if_neg ?_]
        rintro ⟨j', hmem, hcond⟩
        rcases List.mem_cons.mp hmem with rfl | hr
        · exact hj hcond
        · exact hrest ⟨j', hr, hcond⟩

/-! ## Claim theorem: parallel rasterizer equals the sequential loop -/

/-- C10: for every worker count `n ≥ 1` and every completion order of the
band workers (any permutation of the bands), the parallel rasterizer
produces at every buffer index `i < texWidth * texHeight` exactly the
value produced by the sequential top-to-bottom, left-to-right per-pixel
loop over the whole target grid: the buffer is a deterministic function of
the render parameters only. -/
theorem parallel_equals_sequential (ctx : RenderCtx) (n : ℕ) (order : List ℕ)
    (buf : ℕ → Color) (i : ℕ) (hn : 1 ≤ n)
    (hperm : order.Perm (List.range n))
    (hi : i < ctx.texWidth * ctx.texHeight) :
    runBands ctx n order buf i = computeRows ctx 0 ctx.texHeight buf i := by
  have hw : 0 < ctx.texWidth := by
    rcases Nat.eq_zero_or_pos ctx.texWidth with h0 | h0
    · rw [h0] at hi
      simp at hi
    · exact h0
  have hseq := computeRows_band_apply ctx 0 ctx.texHeight buf i
  rw [Nat.zero_add] at hseq
  have hcond2 : 0 * ctx.texWidth ≤ i ∧ i < ctx.texHeight * ctx.texWidth := by
    refine ⟨by simp, ?_⟩
    rw [Nat.mul_comm]
    exact hi
  rw [runBands_apply, hseq, if_pos hcond2]
  have hy : i / ctx.texWidth < ctx.texHeight := by
    rw [Nat.div_lt_iff_lt_mul hw]
    rw [Nat.mul_comm] at hi
    exact hi
  obtain ⟨j, hjn, hj1, hj2⟩ := exists_band ctx.texHeight n hn hy
  have hupper : i < (i / ctx.texWidth + 1) * ctx.texWidth := by
    have h1 : i % ctx.texWidth < ctx.texWidth := Nat.mod_lt _ hw
    have h2 : ctx.texWidth * (i / ctx.texWidth) + i % ctx.texWidth = i :=
      Nat.div_add_mod i ctx.texWidth
    calc i = ctx.texWidth * (i / ctx.texWidth) + i % ctx.texWidth := h2.symm
      _ < ctx.texWidth * (i / ctx.texWidth) + ctx.texWidth := Nat.add_lt_add_left h1 _
      _ = (i / ctx.texWidth + 1) * ctx.texWidth := by ring
  rw [if_pos ?_]
  refine ⟨j, hperm.mem_iff.mpr (List.mem_range.mpr hjn), ?_, ?_⟩
  · calc bandStart ctx.texHeight n j * ctx.texWidth
        ≤ (i / ctx.texWidth) * ctx.texWidth := Nat.mul_le_mul_right _ hj1
      _ ≤ i := Nat.div_mul_le_self i _
  · calc i < (i / ctx.texWidth + 1) * ctx.texWidth := hupper
      _ ≤ (bandStart ctx.texHeight n j + rowsForThread ctx.texHeight n j) *
            ctx.texWidth := Nat.mul_le_mul_right _ (Nat.succ_le_of_lt hj2)

/-- Witness for C10 on a 2×2 target with two workers joined in reversed
order. -/
theorem parallel_equals_sequential_witness :
    runBands ⟨2, 2, ((0 : ℝ), 0), 3.5, 10⟩ 2 [1, 0] (fun _ => Color.black) 3 =
      computeRows ⟨2, 2, ((0 : ℝ), 0), 3.5, 10⟩ 0 2 (fun _ => Color.black) 3 :=
  parallel_equals_sequential ⟨2, 2, ((0 : ℝ), 0), 3.5, 10⟩ 2 [1, 0]
    (fun _ => Color.black) 3 (by norm_num) (by decide) (by norm_num)

end Mandelbrot
